import Mathlib

/-!
# Verification of the Nebuchadnezzar storage core

Shallow embedding, in Lean 4, of the parts of the Nebuchadnezzar
in-memory store that the specification's claims talk about:

* `src/ram/repr.rs` — segment entry headers (tag byte + variable length bytes);
* `src/ram/io/writer.rs` / `src/ram/io/reader.rs` — the schema-driven cell codec;
* `src/ram/chunk.rs` — the chunk index operations (`write_cell`, `update_cell`,
  `update_cell_by`, `remove_cell`, `location_for_read/write`, `try_acquire`);
* `src/ram/segs.rs` — per-segment space acquisition;
* `src/ram/cleaner/compact.rs` — the compacting cleaner's per-segment loop;
* `src/client/mod.rs` — the client transaction retry wrapper;
* `src/index/lsmtree.rs` — the LSM merging cursor;
* `src/index/btree/search.rs` — the backward-ordering index correction.

Machine integers are modelled as `Nat` with explicit `% 2^w` where the Rust
code can overflow.  Memory is a byte-addressed function `Nat → Nat`.
Fallible code returns `Option`/`Except`.  Missing helper modules
(`ram/types`, which is not under `src/`) are modelled from the spec and
marked as such in their doc comments.
-/

namespace Neb

/-! ## Byte-addressed memory

Modelled from the spec: segment memory is a flat byte region; raw pointer
reads/writes in the Rust code become reads/updates of a `Nat → Nat` map.
-/

/-- A byte-addressed memory: address to byte value (0–255). -/
def Mem : Type := Nat → Nat

/-- Read one byte. -/
def Mem.read (m : Mem) (a : Nat) : Nat := m a

/-- Write one byte. -/
def Mem.write1 (m : Mem) (a b : Nat) : Mem := fun x => if x = a then b else m x

/-- Write a list of bytes at consecutive addresses. -/
def Mem.writeBytes : Mem → Nat → List Nat → Mem
  | m, _, [] => m
  | m, a, b :: bs => Mem.writeBytes (m.write1 a b) (a + 1) bs

/-- Read `n` bytes starting at `a`. -/
def Mem.readBytes (m : Mem) (a : Nat) : Nat → List Nat
  | 0 => []
  | n + 1 => m.read a :: m.readBytes (a + 1) n

/-- All-zero memory. -/
def Mem.zeros : Mem := fun _ => 0

/-- Little-endian byte encoding of `n` in `w` bytes (low byte first),
as `byteorder::LittleEndian` produces it. -/
def leBytes (n : Nat) : Nat → List Nat
  | 0 => []
  | w + 1 => (n % 256) :: leBytes (n / 256) w

/-- Little-endian decoding of a byte list (low byte first),
as `byteorder::LittleEndian` reads it. -/
def leDecode : List Nat → Nat
  | [] => 0
  | b :: bs => b % 256 + 256 * leDecode bs

theorem leDecode_leBytes (n w : Nat) (h : n < 256 ^ w) :
    leDecode (leBytes n w) = n := by
  induction w generalizing n with
  | zero => simp [leBytes, leDecode]; omega
  | succ w ih =>
    simp only [leBytes, leDecode]
    rw [ih (n / 256)]
    · omega
    · have : 256 ^ (w + 1) = 256 ^ w * 256 := by ring
      rw [this] at h
      exact Nat.div_lt_of_lt_mul (by omega)

theorem leBytes_length (n w : Nat) : (leBytes n w).length = w := by
  induction w generalizing n with
  | zero => rfl
  | succ w ih => simp [leBytes, ih]

/-! ## Segment entry headers (`src/ram/repr.rs`)

The entry header is one tag byte (`bit 4` region distinguishing cell from
tombstone, low 4 bits the count of length bytes) followed by 0–4
little-endian length bytes.
-/

/-- `EntryType` bitflags from `repr.rs`:
`Cell = 0b00010000`, `Tomestone = 0b00110000`. -/
inductive EntryType where
  | cell
  | tombstone
deriving DecidableEq, Repr

/-- The flag bits of an entry type (`EntryType::bits`). -/
def EntryType.bits : EntryType → Nat
  | .cell => 0b00010000
  | .tombstone => 0b00110000

/-- `EntryType::from_bits`: recover the entry type from its flag bits;
`none` models the `unwrap` panic on unknown bits. -/
def EntryType.fromBits (b : Nat) : Option EntryType :=
  if b = 0b00010000 then some .cell
  else if b = 0b00110000 then some .tombstone
  else none

/-- `count_len_bytes` from `repr.rs`: counts the leading zero bits of the
32-bit length (`(len << i) & msb`, `msb = 1 << 31`, with the u32 shift
wrapping modulo `2^32`), then divides by 8.  The loop increments `count`
for every `i` in `0..32` until the first set bit appears. -/
def count_len_bytes (len : Nat) : Nat :=
  (((List.range 32).takeWhile
      (fun i => ((len <<< i) % 2 ^ 32) &&& 2 ^ 31 = 0)).length) / 8

/-- `encode_len` from `repr.rs`: `LittleEndian::write_u32` into a 4-byte
buffer. -/
def encode_len (len : Nat) : List Nat := leBytes len 4

/-- The decoded entry header (`EntryHeader` struct in `repr.rs`). -/
structure EntryHeader where
  entry_type : EntryType
  entry_length : Nat
deriving DecidableEq, Repr

/-- `EntryHeader::encode_to` from `repr.rs` without the `write_content`
callback: writes the flag byte (`len_bytes_count | entry_type.bits`) at
`pos`, then `memmove`s the first `len_bytes_count` bytes of the 4-byte
little-endian length buffer, and returns the updated memory together with
the content position handed to `write_content`. -/
def EntryHeader.encode_to (m : Mem) (pos : Nat) (entry_type : EntryType)
    (content_len : Nat) : Mem × Nat :=
  let len_bytes_count := count_len_bytes content_len
  let flag_byte := len_bytes_count ||| entry_type.bits
  let len_bytes := encode_len content_len
  let m := m.write1 pos flag_byte
  let pos := pos + 1
  -- memmove(dst := pos, src := len_bytes, n := len_bytes_count)
  let m := m.writeBytes pos (len_bytes.take len_bytes_count)
  (m, pos + len_bytes_count)

/-- `EntryHeader::decode_from` from `repr.rs`: reads the flag byte, splits
it into type bits (`0b11110000 & flag`) and length-byte count
(`0b00001111 & flag`), then executes
`libc::memmove(pos as *mut _, raw_len_bytes as *mut _, entry_bytes_len)`.
Note the argument order: the destination is the segment memory at `pos`
and the source is the freshly zero-initialised 4-byte buffer, so the
buffer stays all zeros and the segment bytes at `pos` are overwritten
with zeros; `entry_length` is then read from the (still zero) buffer.
Returns the header, the content position and the (modified) memory;
`none` models the `unwrap` panic on unknown type bits. -/
def EntryHeader.decode_from (m : Mem) (pos : Nat) :
    Option (EntryHeader × Nat × Mem) :=
  let flag_byte := m.read pos
  let pos := pos + 1
  let entry_type_bits := 0b11110000 &&& flag_byte
  match EntryType.fromBits entry_type_bits with
  | none => none
  | some entry_type =>
    let entry_bytes_len := 0b00001111 &&& flag_byte
    let raw_len_bytes : List Nat := [0, 0, 0, 0]
    -- memmove(dst := pos, src := raw_len_bytes, n := entry_bytes_len):
    -- copies the zero buffer into memory, leaving the buffer untouched
    let m := m.writeBytes pos (raw_len_bytes.take entry_bytes_len)
    let entry_length := leDecode raw_len_bytes
    some (⟨entry_type, entry_length⟩, pos + entry_bytes_len, m)

/-- A segment memory holding an encoded cell entry of content length 1 at
position 0 (flag byte `0b00010011`, then the first three little-endian
length bytes `[1, 0, 0]`). -/
def entryMemLen1 : Mem := (EntryHeader.encode_to Mem.zeros 0 .cell 1).1

/-- C5: encoding an entry header and decoding at the same position does NOT
recover the content length: `decode_from` passes `(pos, raw_len_bytes)` to
`libc::memmove` in destination-source order, copying the zeroed buffer
into the segment instead of reading from it, so the decoded
`entry_length` is always `leDecode [0,0,0,0] = 0`.  Concretely, a cell
entry of content length 1 decodes to entry type `cell` (the tag byte does
round-trip) but content length 0 ≠ 1. -/
theorem entry_header_roundtrip_code_bug :
    (EntryHeader.decode_from entryMemLen1 0).map (fun r => r.1)
      = some ⟨EntryType.cell, 0⟩ ∧
    (EntryHeader.decode_from entryMemLen1 0).map (fun r => r.1)
      ≠ some ⟨EntryType.cell, 1⟩ := by
  exact ⟨by rfl, by decide⟩

/-! ## Segment and chunk space acquisition
(`src/ram/segs.rs`, `src/ram/chunk.rs`) -/

/-- The allocation-relevant state of a `Segment` (`segs.rs`): base address,
upper bound and the atomic append header. -/
structure Segment where
  addr : Nat
  bound : Nat
  append_header : Nat
deriving DecidableEq, Repr

/-- `Segment::try_acquire` from `segs.rs`: if advancing the append header by
`size` would pass the segment bound return `none`; otherwise atomically
advance the header and return the previous header value.  The CAS retry
loop is invisible in the sequential model (the CAS always succeeds). -/
def Segment.try_acquire (s : Segment) (size : Nat) : Option (Nat × Segment) :=
  let curr_last := s.append_header
  let exp_last := curr_last + size
  if exp_last > s.bound then
    none
  else
    some (curr_last, { s with append_header := exp_last })

/-- The allocation-relevant state of a `Chunk` (`chunk.rs`): its segments and
the round-robin segment cursor `seg_round`. -/
structure ChunkAlloc where
  segs : List Segment
  seg_round : Nat
deriving Repr

/-- One iteration step plus the retry recursion of `Chunk::try_acquire`
(`chunk.rs`).  `retried` is the loop's retry counter; the returned `Nat`
counts the failed per-segment attempts made.  On a failed attempt the code
first checks `retried > segs.len() * 2` (returning `none`, chunk full),
otherwise advances `seg_round` and retries. -/
def ChunkAlloc.try_acquire_go (c : ChunkAlloc) (size : Nat) (retried : Nat)
    (hne : c.segs ≠ []) : Option (Nat × ChunkAlloc) × Nat :=
  let n := c.seg_round
  let seg_id := n % c.segs.length
  let seg := c.segs.get ⟨seg_id, Nat.mod_lt _ (List.length_pos.mpr hne)⟩
  match seg.try_acquire size with
  | some (addr, seg') =>
    (some (addr, { c with segs := c.segs.set seg_id seg' }), 0)
  | none =>
    if _h : retried > c.segs.length * 2 then
      (none, 1)
    else
      let c' := { c with seg_round := c.seg_round + 1 }
      let (res, fails) :=
        ChunkAlloc.try_acquire_go c' size (retried + 1) hne
      (res, fails + 1)
termination_by c.segs.length * 2 + 2 - retried

/-- `Chunk::try_acquire` from `chunk.rs`: the retry loop entered with
`retried = 0`. -/
def ChunkAlloc.try_acquire (c : ChunkAlloc) (size : Nat)
    (hne : c.segs ≠ []) : Option (Nat × ChunkAlloc) × Nat :=
  c.try_acquire_go size 0 hne

/-- A segment that is exactly full: its append header sits at its bound. -/
def fullSegment : Segment := ⟨0, 0, 0⟩

/-- A chunk with a single full segment. -/
def fullChunk : ChunkAlloc := ⟨[fullSegment], 0⟩

/-- C7 counterexample: on a chunk with one full segment, `try_acquire`
returns `none` only after 4 failed per-segment attempts, which exceeds
`2 · #segments = 2`: the loop's guard `retried > segs.len() * 2` lets
`2·#segments + 2` failed attempts happen before giving up. -/
theorem chunk_try_acquire_retry_counterexample :
    (fullChunk.try_acquire 1 (by simp [fullChunk])).1 = none ∧
    (fullChunk.try_acquire 1 (by simp [fullChunk])).2 = 4 ∧
    ¬ (fullChunk.try_acquire 1 (by simp [fullChunk])).2
        ≤ 2 * fullChunk.segs.length := by
  refine ⟨?_, ?_, ?_⟩ <;>
    simp [ChunkAlloc.try_acquire, ChunkAlloc.try_acquire_go, fullChunk,
      fullSegment, Segment.try_acquire]

/-- Auxiliary bound: the failed-attempt count of `try_acquire_go`, started
with retry counter `retried ≤ 2·#segments + 1`, never brings the total
past `2·#segments + 2`. -/
theorem try_acquire_go_fails_le (size : Nat) :
    ∀ (k : Nat) (c : ChunkAlloc) (retried : Nat) (hne : c.segs ≠ []),
      c.segs.length * 2 + 2 - retried ≤ k →
      retried ≤ c.segs.length * 2 + 1 →
      (c.try_acquire_go size retried hne).2 + retried
        ≤ c.segs.length * 2 + 2 := by
  intro k
  induction k with
  | zero => intro c retried hne hk hr; omega
  | succ k ih =>
    intro c retried hne hk hr
    rw [ChunkAlloc.try_acquire_go]
    cases hseg : (c.segs.get
        ⟨c.seg_round % c.segs.length,
          Nat.mod_lt _ (List.length_pos.mpr hne)⟩).try_acquire size with
    | some res => simp [hseg]; omega
    | none =>
      simp only [hseg]
      by_cases hgt : retried > c.segs.length * 2
      · simp [hgt]; omega
      · simp only [hgt, dite_false, dif_neg]
        have := ih { c with seg_round := c.seg_round + 1 } (retried + 1)
          hne (by simp; omega) (by simp; omega)
        simp at this ⊢
        omega

/-- C7 (amended): a per-segment attempt fails exactly when advancing the
append header by the requested size would exceed the segment bound, and
otherwise atomically advances the header and returns the previous header
value; the chunk-level round-robin loop returns `none` (chunk full) only
after at most `2·#segments + 2` failed per-segment attempts. -/
theorem chunk_try_acquire_semantics (s : Segment) (c : ChunkAlloc)
    (size : Nat) (hne : c.segs ≠ []) :
    (s.try_acquire size = none ↔ s.bound < s.append_header + size) ∧
    (s.append_header + size ≤ s.bound →
      s.try_acquire size
        = some (s.append_header, { s with append_header := s.append_header + size })) ∧
    (c.try_acquire size hne).2 ≤ 2 * c.segs.length + 2 := by
  refine ⟨?_, ?_, ?_⟩
  · simp only [Segment.try_acquire]
    split <;> rename_i h
    · simpa using h
    · simp; omega
  · intro h
    simp only [Segment.try_acquire]
    split <;> rename_i h'
    · omega
    · rfl
  · have := try_acquire_go_fails_le size (c.segs.length * 2 + 2) c 0 hne
      (by omega) (by omega)
    unfold ChunkAlloc.try_acquire
    omega

/-- C7 witness: the amended bound instantiated on the concrete full chunk. -/
theorem chunk_try_acquire_semantics_witness :
    fullChunk.segs ≠ [] ∧
    (fullChunk.try_acquire 1 (by simp [fullChunk])).2
      ≤ 2 * fullChunk.segs.length + 2 :=
  ⟨by simp [fullChunk],
   (chunk_try_acquire_semantics fullSegment fullChunk 1
      (by simp [fullChunk])).2.2⟩

/-! ## Chunk index operations (`src/ram/chunk.rs`)

The chunk index is a `CHashMap<u64, usize>` from cell hash to in-chunk
address; we embed its contents as an association list so that "at most one
live address per hash" is a provable invariant rather than a typing
accident.  Segment effects (`put_cell_tombstone`, `put_frag`) are recorded
as lists of tombstoned/fragmented addresses.  `Cell::write_to_chunk` is
not under `src/`; following the spec ("writers reserve space from a
segment before touching the index") it is modelled as reserving the next
fresh address. -/

/-- `WriteError` variants from `ram/cell.rs` that the chunk operations and
the cell codec produce. -/
inductive WriteError where
  | cellAlreadyExisted
  | cellDoesNotExisted
  | userCanceledUpdate
  | dataMismatchSchema
deriving DecidableEq, Repr

/-- `ReadError` variants from `ram/cell.rs` that the chunk operations
produce. -/
inductive ReadError where
  | cellDoesNotExisted
deriving DecidableEq, Repr

/-- First-binding lookup in the index association list (the `CHashMap`
read). -/
def indexGet : List (Nat × Nat) → Nat → Option Nat
  | [], _ => none
  | (k, v) :: rest, h => if k = h then some v else indexGet rest h

/-- In-place overwrite of the first binding for a hash (the mutation of a
`CHashMap` `WriteGuard`). -/
def indexSet : List (Nat × Nat) → Nat → Nat → List (Nat × Nat)
  | [], _, _ => []
  | (k, v) :: rest, h, nv =>
    if k = h then (k, nv) :: rest else (k, v) :: indexSet rest h nv

/-- Removal of the first binding for a hash (`CHashMap::remove`). -/
def indexRemove : List (Nat × Nat) → Nat → List (Nat × Nat)
  | [], _ => []
  | (k, v) :: rest, h =>
    if k = h then rest else (k, v) :: indexRemove rest h

/-- The state of a chunk as far as a single-threaded run of the index
operations observes it. -/
structure ChunkState where
  /-- hash → address bindings of the `CHashMap` index -/
  index : List (Nat × Nat)
  /-- addresses handed to `Segment::put_frag` -/
  frags : List Nat
  /-- addresses handed to `Segment::put_cell_tombstone` -/
  tombs : List Nat
  /-- Modelled from the spec: next fresh address a `write_to_chunk`
  reservation returns -/
  nextLoc : Nat
deriving Repr

/-- `Chunk::location_for_read`: a stored address of 0 behaves as absent. -/
def ChunkState.location_for_read (st : ChunkState) (hash : Nat) : Option Nat :=
  match indexGet st.index hash with
  | some index => if index = 0 then none else some index
  | none => none

/-- `Chunk::location_for_write`: a stored address of 0 behaves as absent.
(The read/write guard distinction is invisible sequentially.) -/
def ChunkState.location_for_write (st : ChunkState) (hash : Nat) : Option Nat :=
  match indexGet st.index hash with
  | some index => if index = 0 then none else some index
  | none => none

/-- `Chunk::put_tombstone`: locates the owning segment and records both a
cell tombstone and a fragment at the address. -/
def ChunkState.put_tombstone (st : ChunkState) (location : Nat) : ChunkState :=
  { st with tombs := location :: st.tombs, frags := location :: st.frags }

/-- Modelled from the spec: `Cell::write_to_chunk` (not under `src/`)
reserves segment space and writes the encoded cell there, returning the
new address; writers reserve space before touching the index. -/
def ChunkState.write_to_chunk (st : ChunkState) : Nat × ChunkState :=
  (st.nextLoc, { st with nextLoc := st.nextLoc + 1 })

/-- `Chunk::read_cell`: look up the address under a shared guard and decode
the cell found there (decoding abstracted to the address it reads from). -/
def ChunkState.read_cell (st : ChunkState) (hash : Nat) : Except ReadError Nat :=
  match st.location_for_read hash with
  | some loc => .ok loc
  | none => .error .cellDoesNotExisted

/-- `Chunk::head_cell`: like `read_cell` but decodes only the header. -/
def ChunkState.head_cell (st : ChunkState) (hash : Nat) : Except ReadError Nat :=
  match st.location_for_read hash with
  | some loc => .ok loc
  | none => .error .cellDoesNotExisted

/-- The `index.upsert` call of `Chunk::write_cell` together with its
rollback: insert `loc` when the hash is absent; overwrite a 0 entry in
place; otherwise set `need_rollback`, put a tombstone at the freshly
written location `loc` and fail with `CellAlreadyExisted`, leaving the
competing entry untouched. -/
def ChunkState.write_cell_publish (st : ChunkState) (hash loc : Nat) :
    Except WriteError Unit × ChunkState :=
  match indexGet st.index hash with
  | none => (.ok (), { st with index := (hash, loc) :: st.index })
  | some inserted_loc =>
    if inserted_loc = 0 then
      (.ok (), { st with index := indexSet st.index hash loc })
    else
      (.error .cellAlreadyExisted, st.put_tombstone loc)

/-- `Chunk::write_cell`: reject if the hash already maps to a live address,
else reserve space, write, and publish through the upsert. -/
def ChunkState.write_cell (st : ChunkState) (hash : Nat) :
    Except WriteError Unit × ChunkState :=
  if (st.location_for_read hash).isSome then
    (.error .cellAlreadyExisted, st)
  else
    let (loc, st) := st.write_to_chunk
    st.write_cell_publish hash loc

/-- `Chunk::update_cell`: requires an existing live address; writes the new
copy, swaps the index pointer under the write guard, then tombstones and
fragments the old address. -/
def ChunkState.update_cell (st : ChunkState) (hash : Nat) :
    Except WriteError Unit × ChunkState :=
  match st.location_for_write hash with
  | some old_location =>
    let (new_location, st) := st.write_to_chunk
    let st := { st with index := indexSet st.index hash new_location }
    (.ok (), st.put_tombstone old_location)
  | none => (.error .cellDoesNotExisted, st)

/-- `Chunk::update_cell_by`: read-modify-write with the same swap
semantics; `upd = none` models the user closure returning `None`
(`UserCanceledUpdate`).  The decode of the old cell is assumed to
succeed (its failure path returns a `ReadError` without touching the
index). -/
def ChunkState.update_cell_by (st : ChunkState) (hash : Nat)
    (upd : Option Unit) : Except WriteError Unit × ChunkState :=
  match st.location_for_write hash with
  | some old_location =>
    match upd with
    | some _ =>
      let (new_location, st) := st.write_to_chunk
      let st := { st with index := indexSet st.index hash new_location }
      (.ok (), st.put_tombstone old_location)
    | none => (.error .userCanceledUpdate, st)
  | none => (.error .cellDoesNotExisted, st)

/-- `Chunk::remove_cell`: `index.remove(&hash)` drops the entry (whatever
address it held) and tombstones the old address; absent hashes fail with
`CellDoesNotExisted`. -/
def ChunkState.remove_cell (st : ChunkState) (hash : Nat) :
    Except WriteError Unit × ChunkState :=
  match indexGet st.index hash with
  | some cell_location =>
    (.ok (), ({ st with index := indexRemove st.index hash }).put_tombstone
      cell_location)
  | none => (.error .cellDoesNotExisted, st)

/-- Number of index bindings for a given hash. -/
def keyCount (idx : List (Nat × Nat)) (h : Nat) : Nat :=
  (idx.filter (fun p => p.1 == h)).length

/-- Key-uniqueness of the index: the `CHashMap` holds one binding per key. -/
def ChunkState.wf (st : ChunkState) : Prop :=
  (st.index.map Prod.fst).Nodup

instance (st : ChunkState) : Decidable st.wf := by
  unfold ChunkState.wf; infer_instance

theorem indexGet_eq_none_iff (idx : List (Nat × Nat)) (h : Nat) :
    indexGet idx h = none ↔ h ∉ idx.map Prod.fst := by
  induction idx with
  | nil => simp [indexGet]
  | cons p rest ih =>
    obtain ⟨k, v⟩ := p
    simp only [indexGet, List.map_cons, List.mem_cons]
    by_cases hk : k = h
    · subst hk; simp
    · rw [if_neg hk, ih]
      constructor
      · intro hh hc
        rcases hc with h1 | h2
        · exact hk h1.symm
        · exact hh h2
      · intro hh hc
        exact hh (Or.inr hc)

theorem indexSet_map_fst (idx : List (Nat × Nat)) (h v : Nat) :
    (indexSet idx h v).map Prod.fst = idx.map Prod.fst := by
  induction idx with
  | nil => rfl
  | cons p rest ih =>
    obtain ⟨k, w⟩ := p
    by_cases hk : k = h <;> simp [indexSet, hk, ih]

theorem indexGet_indexSet_self (idx : List (Nat × Nat)) (h v : Nat) :
    indexGet (indexSet idx h v) h = (indexGet idx h).map (fun _ => v) := by
  induction idx with
  | nil => rfl
  | cons p rest ih =>
    obtain ⟨k, w⟩ := p
    by_cases hk : k = h <;> simp [indexSet, indexGet, hk, ih]

theorem indexRemove_map_fst_sublist (idx : List (Nat × Nat)) (h : Nat) :
    List.Sublist ((indexRemove idx h).map Prod.fst) (idx.map Prod.fst) := by
  induction idx with
  | nil => simp [indexRemove]
  | cons p rest ih =>
    obtain ⟨k, w⟩ := p
    by_cases hk : k = h
    · simp only [indexRemove, if_pos hk, List.map_cons]
      exact List.sublist_cons_self _ _
    · simp only [indexRemove, if_neg hk, List.map_cons]
      exact ih.cons₂ _

theorem indexGet_indexRemove_self (idx : List (Nat × Nat)) (h : Nat)
    (hnd : (idx.map Prod.fst).Nodup) :
    indexGet (indexRemove idx h) h = none := by
  induction idx with
  | nil => rfl
  | cons p rest ih =>
    obtain ⟨k, w⟩ := p
    simp only [List.map_cons, List.nodup_cons] at hnd
    by_cases hk : k = h
    · subst hk
      simp only [indexRemove, if_pos rfl]
      rw [indexGet_eq_none_iff]
      exact hnd.1
    · simp [indexRemove, indexGet, hk, ih hnd.2]

theorem keyCount_le_one_of_nodup (idx : List (Nat × Nat)) (h : Nat)
    (hnd : (idx.map Prod.fst).Nodup) : keyCount idx h ≤ 1 := by
  induction idx with
  | nil => simp [keyCount]
  | cons p rest ih =>
    obtain ⟨k, w⟩ := p
    simp only [List.map_cons, List.nodup_cons] at hnd
    have hrest := ih hnd.2
    by_cases hk : k = h
    · subst hk
      have h0 : keyCount rest k = 0 := by
        unfold keyCount
        rw [List.length_eq_zero, List.filter_eq_nil_iff]
        intro p hp hbeq
        exact hnd.1 (by
          have hpk : p.1 = k := by simpa using hbeq
          exact hpk ▸ List.mem_map_of_mem Prod.fst hp)
      unfold keyCount at h0 ⊢
      rw [List.filter_cons]
      simp only [beq_self_eq_true, if_true, List.length_cons, h0]
      omega
    · unfold keyCount at hrest ⊢
      rw [List.filter_cons]
      have hbk : ((k, w).1 == h) = false := by simpa using hk
      rw [hbk]
      simpa using hrest

/-- The operations C2 quantifies over. -/
inductive ChunkOp where
  | write
  | update
  | updateBy (upd : Option Unit)
  | remove
deriving DecidableEq, Repr

/-- Apply one chunk operation on a single cell hash, keeping the state. -/
def ChunkState.applyOp (st : ChunkState) (hash : Nat) : ChunkOp → ChunkState
  | .write => (st.write_cell hash).2
  | .update => (st.update_cell hash).2
  | .updateBy upd => (st.update_cell_by hash upd).2
  | .remove => (st.remove_cell hash).2

/-- Apply a sequence of chunk operations on a single cell hash. -/
def ChunkState.applyOps (st : ChunkState) (hash : Nat)
    (ops : List ChunkOp) : ChunkState :=
  ops.foldl (fun s op => s.applyOp hash op) st

theorem wf_applyOp (st : ChunkState) (hash : Nat) (op : ChunkOp)
    (hwf : st.wf) : (st.applyOp hash op).wf := by
  unfold ChunkState.wf at *
  cases op with
  | write =>
    simp only [ChunkState.applyOp, ChunkState.write_cell]
    split
    · exact hwf
    · simp only [ChunkState.write_to_chunk, ChunkState.write_cell_publish]
      cases hg : indexGet st.index hash with
      | none =>
        simp only [List.map_cons, List.nodup_cons]
        exact ⟨(indexGet_eq_none_iff _ _).mp hg, hwf⟩
      | some l =>
        by_cases hl : l = 0 <;>
          simp [hl, indexSet_map_fst, ChunkState.put_tombstone, hwf]
  | update =>
    simp only [ChunkState.applyOp, ChunkState.update_cell]
    cases hg : st.location_for_write hash with
    | none => exact hwf
    | some old =>
      simp [ChunkState.write_to_chunk, ChunkState.put_tombstone,
        indexSet_map_fst, hwf]
  | updateBy upd =>
    simp only [ChunkState.applyOp, ChunkState.update_cell_by]
    cases hg : st.location_for_write hash with
    | none => exact hwf
    | some old =>
      cases upd with
      | none => exact hwf
      | some _ =>
        simp [ChunkState.write_to_chunk, ChunkState.put_tombstone,
          indexSet_map_fst, hwf]
  | remove =>
    simp only [ChunkState.applyOp, ChunkState.remove_cell]
    cases hg : indexGet st.index hash with
    | none => exact hwf
    | some old =>
      simp only [ChunkState.put_tombstone]
      exact (indexRemove_map_fst_sublist st.index hash).nodup hwf

theorem wf_applyOps (st : ChunkState) (hash : Nat) (ops : List ChunkOp)
    (hwf : st.wf) : (st.applyOps hash ops).wf := by
  induction ops generalizing st with
  | nil => exact hwf
  | cons op rest ih => exact ih _ (wf_applyOp st hash op hwf)

/-- C2: after any sequence of `write_cell` / `update_cell` /
`update_cell_by` / `remove_cell` operations on a single cell hash the
chunk index holds at most one binding (hence at most one live address)
for every hash; `update_cell` replaces the stored pointer with the new
location and records the old range as a fragment plus tombstone;
`remove_cell` drops the entry and tombstones the old address. -/
theorem chunk_index_single_live_address (st : ChunkState) (hash : Nat)
    (ops : List ChunkOp) (hwf : st.wf) :
    ((st.applyOps hash ops).wf ∧
      ∀ h', keyCount (st.applyOps hash ops).index h' ≤ 1) ∧
    (∀ old, st.location_for_write hash = some old →
      (st.update_cell hash).1 = .ok () ∧
      indexGet (st.update_cell hash).2.index hash = some st.nextLoc ∧
      old ∈ (st.update_cell hash).2.frags ∧
      old ∈ (st.update_cell hash).2.tombs) ∧
    (∀ old, indexGet st.index hash = some old →
      (st.remove_cell hash).1 = .ok () ∧
      indexGet (st.remove_cell hash).2.index hash = none ∧
      old ∈ (st.remove_cell hash).2.tombs) := by
  refine ⟨⟨wf_applyOps st hash ops hwf, fun h' => ?_⟩, fun old hold => ?_,
    fun old hold => ?_⟩
  · exact keyCount_le_one_of_nodup _ _ (wf_applyOps st hash ops hwf)
  · have hg : indexGet st.index hash = some old := by
      unfold ChunkState.location_for_write at hold
      cases hg : indexGet st.index hash with
      | none => simp [hg] at hold
      | some l =>
        simp only [hg] at hold
        by_cases hl : l = 0
        · simp [hl] at hold
        · simp only [if_neg hl, Option.some.injEq] at hold
          exact congrArg some hold
    refine ⟨?_, ?_, ?_, ?_⟩ <;>
      simp [ChunkState.update_cell, hold, ChunkState.write_to_chunk,
        ChunkState.put_tombstone, indexGet_indexSet_self, hg]
  · refine ⟨?_, ?_, ?_⟩ <;>
      simp [ChunkState.remove_cell, hold, ChunkState.put_tombstone,
        indexGet_indexRemove_self _ _ hwf]

/-- C2 witness: the theorem applied to a concrete well-formed chunk state,
hash 7 and the op sequence write–update–remove. -/
theorem chunk_index_single_live_address_witness :
    (ChunkState.mk [(7, 3)] [] [] 4).wf ∧
    (((ChunkState.mk [(7, 3)] [] [] 4).applyOps 7
        [ChunkOp.write, ChunkOp.update, ChunkOp.remove]).wf ∧
      ∀ h', keyCount ((ChunkState.mk [(7, 3)] [] [] 4).applyOps 7
        [ChunkOp.write, ChunkOp.update, ChunkOp.remove]).index h' ≤ 1) :=
  ⟨by decide,
   (chunk_index_single_live_address (ChunkState.mk [(7, 3)] [] [] 4) 7
      [ChunkOp.write, ChunkOp.update, ChunkOp.remove] (by decide)).1⟩

/-- C3: `write_cell` returns `CellAlreadyExisted` when the hash already maps
to a live address; otherwise it reserves space and publishes the new
address through the upsert (installing the fresh address when the hash is
absent); and when the upsert finds a concurrently installed live address
(the publish step running against an index state holding a non-zero entry)
it puts a tombstone at the freshly written location, leaves the competing
entry untouched and returns `CellAlreadyExisted`. -/
theorem write_cell_semantics (st : ChunkState) (hash : Nat) :
    ((st.location_for_read hash).isSome →
      st.write_cell hash = (.error .cellAlreadyExisted, st)) ∧
    (indexGet st.index hash = none →
      (st.write_cell hash).1 = .ok () ∧
      indexGet (st.write_cell hash).2.index hash = some st.nextLoc ∧
      (st.write_cell hash).2.tombs = st.tombs ∧
      (st.write_cell hash).2.frags = st.frags) ∧
    (∀ (st' : ChunkState) (loc l : Nat),
      indexGet st'.index hash = some l → l ≠ 0 →
      st'.write_cell_publish hash loc
        = (.error .cellAlreadyExisted, st'.put_tombstone loc) ∧
      (st'.put_tombstone loc).index = st'.index ∧
      loc ∈ (st'.put_tombstone loc).tombs) := by
  refine ⟨fun hsome => ?_, fun hnone => ?_, fun st' loc l hg hl => ?_⟩
  · simp [ChunkState.write_cell, hsome]
  · have hread : st.location_for_read hash = none := by
      simp [ChunkState.location_for_read, hnone]
    refine ⟨?_, ?_, ?_, ?_⟩ <;>
      simp [ChunkState.write_cell, hread, ChunkState.write_to_chunk,
        ChunkState.write_cell_publish, hnone, indexGet]
  · refine ⟨?_, ?_, ?_⟩ <;>
      simp [ChunkState.write_cell_publish, hg, hl, ChunkState.put_tombstone]

/-- C3 witness: the three branches exercised on concrete states — a live
entry for hash 7 rejects a write, hash 9 absent from the same index gets
installed, and the publish step racing a live entry rolls back. -/
theorem write_cell_semantics_witness :
    ((ChunkState.mk [(7, 3)] [] [] 4).location_for_read 7).isSome ∧
    (ChunkState.mk [(7, 3)] [] [] 4).write_cell 7
      = (.error .cellAlreadyExisted, ChunkState.mk [(7, 3)] [] [] 4) ∧
    indexGet (ChunkState.mk [(7, 3)] [] [] 4).index 9 = none ∧
    ((ChunkState.mk [(7, 3)] [] [] 4).write_cell 9).1 = .ok () ∧
    indexGet ((ChunkState.mk [(7, 3)] [] [] 4).write_cell 9).2.index 9
      = some 4 ∧
    (ChunkState.mk [(7, 3)] [] [] 4).write_cell_publish 7 5
      = (.error .cellAlreadyExisted,
         (ChunkState.mk [(7, 3)] [] [] 4).put_tombstone 5) := by
  have h1 := (write_cell_semantics (ChunkState.mk [(7, 3)] [] [] 4) 7).1
    (by decide)
  have h2 := (write_cell_semantics (ChunkState.mk [(7, 3)] [] [] 4) 9).2.1
    (by decide)
  have h3 := (write_cell_semantics (ChunkState.mk [(7, 3)] [] [] 4) 7).2.2
    (ChunkState.mk [(7, 3)] [] [] 4) 5 3 (by decide) (by decide)
  exact ⟨by decide, h1, by decide, h2.1, h2.2.1, h3.1⟩

/-- C10: an index entry whose stored address is 0 behaves as absent at the
public interface — `location_for_read` / `location_for_write` return
`none`, so `read_cell`, `head_cell`, `update_cell` and `update_cell_by`
report `CellDoesNotExisted` — while `write_cell`'s upsert treats the 0
entry as free and installs the new address in place of the 0 instead of
returning `CellAlreadyExisted`. -/
theorem zero_address_dead_slot (st : ChunkState) (hash : Nat)
    (upd : Option Unit) (h0 : indexGet st.index hash = some 0) :
    st.location_for_read hash = none ∧
    st.location_for_write hash = none ∧
    st.read_cell hash = .error .cellDoesNotExisted ∧
    st.head_cell hash = .error .cellDoesNotExisted ∧
    st.update_cell hash = (.error .cellDoesNotExisted, st) ∧
    st.update_cell_by hash upd = (.error .cellDoesNotExisted, st) ∧
    (st.write_cell hash).1 = .ok () ∧
    indexGet (st.write_cell hash).2.index hash = some st.nextLoc := by
  have hread : st.location_for_read hash = none := by
    simp [ChunkState.location_for_read, h0]
  have hwrite : st.location_for_write hash = none := by
    simp [ChunkState.location_for_write, h0]
  refine ⟨hread, hwrite, ?_, ?_, ?_, ?_, ?_, ?_⟩
  · simp [ChunkState.read_cell, hread]
  · simp [ChunkState.head_cell, hread]
  · simp [ChunkState.update_cell, hwrite]
  · simp [ChunkState.update_cell_by, hwrite]
  · simp [ChunkState.write_cell, hread, ChunkState.write_to_chunk,
      ChunkState.write_cell_publish, h0]
  · simp [ChunkState.write_cell, hread, ChunkState.write_to_chunk,
      ChunkState.write_cell_publish, h0, indexGet_indexSet_self]

/-- C10 witness: a chunk state whose index maps hash 7 to the dead-slot
address 0. -/
theorem zero_address_dead_slot_witness :
    indexGet (ChunkState.mk [(7, 0)] [] [] 4).index 7 = some 0 ∧
    (ChunkState.mk [(7, 0)] [] [] 4).read_cell 7
      = .error .cellDoesNotExisted ∧
    ((ChunkState.mk [(7, 0)] [] [] 4).write_cell 7).1 = .ok () ∧
    indexGet ((ChunkState.mk [(7, 0)] [] [] 4).write_cell 7).2.index 7
      = some 4 :=
  have h := zero_address_dead_slot (ChunkState.mk [(7, 0)] [] [] 4) 7 none
    (by decide)
  ⟨by decide, h.2.2.1, h.2.2.2.2.2.2.1, h.2.2.2.2.2.2.2⟩

/-! ## Client transaction retry wrapper (`src/client/mod.rs`)

`AsyncClientInner::transaction` runs the user closure, then (still inside
one attempt) `prepare` and `commit`; the combined outcome of one attempt —
`txn_result` at the `TXN CONCLUSION` point — is either success, a
`NotRealizable` conclusion, or another error.  We supply the per-attempt
outcomes as an oracle `Nat → …` indexed by the attempt number, which is
the shallow embedding of the nondeterministic RPC results. -/

/-- `TxnError` variants relevant to the retry wrapper; every variant other
than `notRealizable` that an attempt can produce is collapsed into
`other` (e.g. `IoError`, `CannotBegin`, data-site errors). -/
inductive TxnError where
  | notRealizable
  | tooManyRetry
  | other (code : Nat)
deriving DecidableEq, Repr

/-- `static TRANSACTION_MAX_RETRY: u32 = 500`. -/
def TRANSACTION_MAX_RETRY : Nat := 500

/-- The retry loop of `AsyncClientInner::transaction`
(`while retried < TRANSACTION_MAX_RETRY { … retried += 1 }` followed by
`Err(TxnError::TooManyRetry)`).  Besides the result we count the closure
invocations and the aborts performed, to state the claim's "reinvokes"
and "aborting the failed attempt before each retry" parts.  On a
successful conclusion the loop returns the closure's value; on a
`NotRealizable` conclusion it aborts and continues; on any other error it
aborts and returns that error. -/
def transaction_go {α : Type} (outcomes : Nat → Except TxnError α)
    (retried : Nat) : Except TxnError α × Nat × Nat :=
  if _h : retried < TRANSACTION_MAX_RETRY then
    match outcomes retried with
    | .ok v => (.ok v, 1, 0)
    | .error .notRealizable =>
      let r := transaction_go outcomes (retried + 1)
      (r.1, r.2.1 + 1, r.2.2 + 1)
    | .error e => (.error e, 1, 1)
  else
    (.error .tooManyRetry, 0, 0)
termination_by TRANSACTION_MAX_RETRY - retried

/-- `AsyncClientInner::transaction`: the loop entered with `retried = 0`. -/
def transaction {α : Type} (outcomes : Nat → Except TxnError α) :
    Except TxnError α × Nat × Nat :=
  transaction_go outcomes 0

theorem transaction_go_invocations_le {α : Type}
    (outcomes : Nat → Except TxnError α) :
    ∀ (k retried : Nat), TRANSACTION_MAX_RETRY - retried ≤ k →
      (transaction_go outcomes retried).2.1 ≤ TRANSACTION_MAX_RETRY - retried := by
  intro k
  induction k with
  | zero =>
    intro retried hk
    rw [transaction_go]
    have : ¬ retried < TRANSACTION_MAX_RETRY := by omega
    simp [this]
  | succ k ih =>
    intro retried hk
    rw [transaction_go]
    by_cases hlt : retried < TRANSACTION_MAX_RETRY
    · rw [dif_pos hlt]
      cases houtcome : outcomes retried with
      | ok v => simp; omega
      | error e =>
        cases e with
        | notRealizable =>
          have := ih (retried + 1) (by omega)
          simp only []
          omega
        | tooManyRetry => simp; omega
        | other code => simp; omega
    · simp [hlt]

theorem transaction_go_all_not_realizable {α : Type}
    (outcomes : Nat → Except TxnError α) :
    ∀ (k retried : Nat), TRANSACTION_MAX_RETRY - retried ≤ k →
      (∀ i, retried ≤ i → i < TRANSACTION_MAX_RETRY →
        outcomes i = .error .notRealizable) →
      transaction_go outcomes retried
        = (.error .tooManyRetry, TRANSACTION_MAX_RETRY - retried,
           TRANSACTION_MAX_RETRY - retried) := by
  intro k
  induction k with
  | zero =>
    intro retried hk hnr
    rw [transaction_go]
    have hge : ¬ retried < TRANSACTION_MAX_RETRY := by omega
    have h0 : TRANSACTION_MAX_RETRY - retried = 0 := by omega
    simp [hge, h0]
  | succ k ih =>
    intro retried hk hnr
    rw [transaction_go]
    by_cases hlt : retried < TRANSACTION_MAX_RETRY
    · rw [dif_pos hlt, hnr retried (le_refl _) hlt]
      rw [ih (retried + 1) (by omega) (fun i hi hlti => hnr i (by omega) hlti)]
      have harith : TRANSACTION_MAX_RETRY - (retried + 1) + 1
          = TRANSACTION_MAX_RETRY - retried := by omega
      simp only [Prod.mk.injEq, true_and, eq_self_iff_true, and_true]
      exact ⟨harith, harith⟩
    · have h0 : TRANSACTION_MAX_RETRY - retried = 0 := by omega
      simp [hlt, h0]

theorem transaction_go_stops {α : Type}
    (outcomes : Nat → Except TxnError α) :
    ∀ (k retried j : Nat), j - retried ≤ k → retried ≤ j →
      j < TRANSACTION_MAX_RETRY →
      (∀ i, retried ≤ i → i < j → outcomes i = .error .notRealizable) →
      ((∀ v, outcomes j = .ok v →
        transaction_go outcomes retried = (.ok v, j - retried + 1, j - retried)) ∧
       (∀ code, outcomes j = .error (.other code) →
        transaction_go outcomes retried
          = (.error (.other code), j - retried + 1, j - retried + 1))) := by
  intro k
  induction k with
  | zero =>
    intro retried j hk hle hlt hnr
    have hj : j = retried := by omega
    subst hj
    constructor
    · intro v hv
      rw [transaction_go, dif_pos hlt, hv]
      simp
    · intro code hc
      rw [transaction_go, dif_pos hlt, hc]
      simp
  | succ k ih =>
    intro retried j hk hle hlt hnr
    by_cases hj : j = retried
    · subst hj
      constructor
      · intro v hv
        rw [transaction_go, dif_pos hlt, hv]
        simp
      · intro code hc
        rw [transaction_go, dif_pos hlt, hc]
        simp
    · have hlt' : retried < j := by omega
      have hrec := ih (retried + 1) j (by omega) (by omega) hlt
        (fun i hi hij => hnr i (by omega) hij)
      constructor
      · intro v hv
        rw [transaction_go, dif_pos (by omega),
          hnr retried (le_refl _) hlt']
        rw [(hrec.1 v hv)]
        simp
        omega
      · intro code hc
        rw [transaction_go, dif_pos (by omega),
          hnr retried (le_refl _) hlt']
        rw [(hrec.2 code hc)]
        simp
        omega

/-- C8: the transaction wrapper invokes the closure at most
`TRANSACTION_MAX_RETRY = 500` times (so it is re-invoked at most 500
times); if every attempt concludes `NotRealizable` it aborts each of the
500 failed attempts and returns `TooManyRetry`; if attempt `j` concludes
with any other error after `j` `NotRealizable` attempts, that attempt is
aborted, the error propagates, and the closure is not invoked again
(exactly `j + 1` invocations); a successful attempt returns its value
without a further abort. -/
theorem transaction_retry_semantics {α : Type}
    (outcomes : Nat → Except TxnError α) (j : Nat) (v : α) (code : Nat)
    (hj : j < TRANSACTION_MAX_RETRY) :
    ((transaction outcomes).2.1 ≤ TRANSACTION_MAX_RETRY) ∧
    ((∀ i, i < TRANSACTION_MAX_RETRY → outcomes i = .error .notRealizable) →
      transaction outcomes
        = (.error .tooManyRetry, TRANSACTION_MAX_RETRY, TRANSACTION_MAX_RETRY)) ∧
    ((∀ i, i < j → outcomes i = .error .notRealizable) →
      outcomes j = .error (.other code) →
      transaction outcomes = (.error (.other code), j + 1, j + 1)) ∧
    ((∀ i, i < j → outcomes i = .error .notRealizable) →
      outcomes j = .ok v →
      transaction outcomes = (.ok v, j + 1, j)) := by
  refine ⟨?_, fun hall => ?_, fun hnr hstop => ?_, fun hnr hstop => ?_⟩
  · have := transaction_go_invocations_le outcomes TRANSACTION_MAX_RETRY 0
      (by omega)
    unfold transaction
    omega
  · have := transaction_go_all_not_realizable outcomes TRANSACTION_MAX_RETRY 0
      (by omega) (fun i _ hi => hall i hi)
    simpa [transaction] using this
  · have := (transaction_go_stops outcomes j 0 j (by omega) (by omega) hj
      (fun i _ hij => hnr i hij)).2 code hstop
    simpa [transaction] using this
  · have := (transaction_go_stops outcomes j 0 j (by omega) (by omega) hj
      (fun i _ hij => hnr i hij)).1 v hstop
    simpa [transaction] using this

/-- C8 witness: an oracle that concludes `NotRealizable` twice and then
fails with another error: the wrapper stops after 3 invocations and 3
aborts, propagating the error. -/
theorem transaction_retry_semantics_witness :
    (2 < TRANSACTION_MAX_RETRY) ∧
    transaction (fun i => if i < 2 then .error .notRealizable
      else (.error (.other 42) : Except TxnError Nat))
      = (.error (.other 42), 3, 3) :=
  ⟨by decide,
   ((transaction_retry_semantics
      (fun i => if i < 2 then .error .notRealizable
        else (.error (.other 42) : Except TxnError Nat)) 2 0 42
      (by decide)).2.2.1
     (fun i hi => by simp [hi]) (by simp))⟩

/-! ## B+Tree backward search correction (`src/index/btree/search.rs`)

In the external-node branch of `search_node`, after the node search
returns the landing index `pos`, Backward ordering applies
`if pos > 0 && (pos >= n.len || &n.keys.as_slice_immute()[pos] != key) { pos -= 1 }`.
We embed the node's valid keys as the list `keys` (so `n.len` is
`keys.length`); `pos` is whatever the node search returned. -/

/-- The Backward-ordering landing-index correction of `search_node`. -/
def backward_correct {K : Type} [DecidableEq K] (keys : List K) (pos : Nat)
    (key : K) : Nat :=
  if pos > 0 ∧ (pos ≥ keys.length ∨ ¬ keys.get? pos = some key) then pos - 1
  else pos

/-- C9: for a Backward search landing in an external node, the landing
index is decremented by exactly one iff the key at the landing position
is not an exact match for the search key and the index is greater than
zero; an exact match leaves the index unchanged. -/
theorem backward_correct_semantics {K : Type} [DecidableEq K]
    (keys : List K) (pos : Nat) (key : K) :
    ((backward_correct keys pos key = pos - 1 ∧
        backward_correct keys pos key ≠ pos)
      ↔ (pos > 0 ∧ ¬ keys.get? pos = some key)) ∧
    (keys.get? pos = some key → backward_correct keys pos key = pos) := by
  have hcond : (pos ≥ keys.length ∨ ¬ keys.get? pos = some key)
      ↔ ¬ keys.get? pos = some key := by
    constructor
    · intro h
      rcases h with h | h
      · rw [List.get?_eq_none.mpr h]
        simp
      · exact h
    · exact Or.inr
  constructor
  · unfold backward_correct
    by_cases hm : keys.get? pos = some key
    · have hneg : ¬ (pos > 0 ∧
          (pos ≥ keys.length ∨ ¬ keys.get? pos = some key)) := by
        rintro ⟨_, hor⟩
        exact (hcond.mp hor) hm
      rw [if_neg hneg]
      constructor
      · rintro ⟨_, hne⟩
        exact absurd rfl hne
      · rintro ⟨_, hnm⟩
        exact absurd hm hnm
    · by_cases h0 : pos > 0
      · rw [if_pos ⟨h0, Or.inr hm⟩]
        exact ⟨fun _ => ⟨h0, hm⟩, fun _ => ⟨rfl, by omega⟩⟩
      · have hp : pos = 0 := by omega
        subst hp
        rw [if_neg (by rintro ⟨h, _⟩; omega)]
        constructor
        · rintro ⟨_, hne⟩
          exact absurd rfl hne
        · rintro ⟨h, _⟩
          omega
  · intro hm
    unfold backward_correct
    rw [if_neg]
    rintro ⟨_, hor⟩
    exact (hcond.mp hor) hm

/-- C9 witness: on keys `[1, 2, 3]`, an exact match at landing index 1
stays at 1, and a non-matching landing index 2 is corrected to 1. -/
theorem backward_correct_semantics_witness :
    backward_correct [1, 2, 3] 1 (2 : Nat) = 1 ∧
    backward_correct [1, 2, 3] 2 (10 : Nat) = 1 :=
  ⟨(backward_correct_semantics [1, 2, 3] 1 2).2 (by decide),
   ((backward_correct_semantics [1, 2, 3] 2 10).1.mpr
      ⟨by decide, by decide⟩).1⟩

/-! ## LSM-tree merging cursor (`src/index/lsmtree.rs`)

`LSMTreeCursor` holds one cursor per level.  The per-level cursor
(`RTCursor` with its deletion-set filter, `index/btree/cursor.rs`) is not
under `src/`; modelled from the spec: it traverses the level's keys in
order and skips keys marked deleted in the level's tombstone set. -/

/-- Modelled from the spec: a per-level cursor over the level's remaining
keys with the level's deletion set; deleted keys are skipped. -/
structure LevelCursor (K : Type) [DecidableEq K] where
  keys : List K
  deleted : List K

variable {K : Type} [DecidableEq K]

/-- The keys this level cursor still yields: remaining keys with deleted
keys skipped. -/
def LevelCursor.visible (c : LevelCursor K) : List K :=
  c.keys.filter (fun k => decide (k ∉ c.deleted))

/-- `Cursor::current` of a per-level cursor. -/
def LevelCursor.current (c : LevelCursor K) : Option K :=
  c.visible.head?

/-- `Cursor::next` of a per-level cursor: advance past the current key,
reporting whether a key remains. -/
def LevelCursor.next (c : LevelCursor K) : Bool × LevelCursor K :=
  let c' : LevelCursor K := ⟨c.visible.drop 1, c.deleted⟩
  (!(c'.visible.isEmpty), c')

/-- `Iterator::min` over the collected current keys: the minimum value.
-/
def iterMin [LinearOrder K] : List K → Option K
  | [] => none
  | x :: xs =>
    match iterMin xs with
    | none => some x
    | some m => if x ≤ m then some x else some m

/-- `Iterator::min_by` over the per-level cursors that have a current key,
comparing current keys: returns the index (from `i`) and current key of
the first minimal cursor (a later cursor replaces the best only when
strictly smaller). -/
def minCursorGo [LinearOrder K] : List (LevelCursor K) → Nat → Option (Nat × K)
  | [], _ => none
  | c :: rest, i =>
    match c.current, minCursorGo rest (i + 1) with
    | none, r => r
    | some k, none => some (i, k)
    | some k, some (bi, bk) => if bk < k then some (bi, bk) else some (i, k)

/-- `LSMTreeCursor` from `lsmtree.rs`: the per-level cursors produced by
`LSMTree::seek`. -/
structure LSMTreeCursor (K : Type) [DecidableEq K] where
  level_cursors : List (LevelCursor K)

/-- `Cursor::current` for `LSMTreeCursor`:
`self.level_cursors.iter().filter_map(|c| c.current()).min()`. -/
def LSMTreeCursor.current [LinearOrder K] (c : LSMTreeCursor K) : Option K :=
  iterMin (c.level_cursors.filterMap LevelCursor.current)

/-- `Cursor::next` for `LSMTreeCursor`: find the first cursor holding the
minimum current key (`filter` + `min_by`), advance only it
(`.map(|c| c.next()).unwrap_or(false)`). -/
def LSMTreeCursor.next [LinearOrder K] (c : LSMTreeCursor K) :
    Bool × LSMTreeCursor K :=
  match minCursorGo c.level_cursors 0 with
  | none => (false, c)
  | some (i, _) =>
    match c.level_cursors.get? i with
    | none => (false, c)
    | some lc =>
      let (b, lc') := lc.next
      (b, ⟨c.level_cursors.set i lc'⟩)

theorem LevelCursor.current_not_deleted (c : LevelCursor K) (k : K)
    (h : c.current = some k) : k ∉ c.deleted := by
  unfold LevelCursor.current at h
  have hmem : k ∈ c.visible := by
    cases hv : c.visible with
    | nil => rw [hv] at h; exact Option.noConfusion h
    | cons x xs =>
      rw [hv] at h
      simp only [List.head?] at h
      cases h
      simp
  unfold LevelCursor.visible at hmem
  have := List.of_mem_filter hmem
  simpa using this

theorem iterMin_eq_none_iff [LinearOrder K] (l : List K) :
    iterMin l = none ↔ l = [] := by
  cases l with
  | nil => simp [iterMin]
  | cons x xs =>
    simp only [iterMin]
    cases h : iterMin xs with
    | none => simp
    | some m =>
      by_cases hx : x ≤ m <;> simp [hx]

theorem iterMin_spec [LinearOrder K] (l : List K) (k : K)
    (h : iterMin l = some k) : k ∈ l ∧ ∀ x ∈ l, k ≤ x := by
  induction l generalizing k with
  | nil => simp [iterMin] at h
  | cons x xs ih =>
    simp only [iterMin] at h
    cases hxs : iterMin xs with
    | none =>
      rw [hxs] at h
      cases h
      have hnil : xs = [] := (iterMin_eq_none_iff xs).mp hxs
      subst hnil
      simp
    | some m =>
      simp only [hxs] at h
      obtain ⟨hm, hb⟩ := ih m hxs
      by_cases hxm : x ≤ m
      · rw [if_pos hxm] at h
        cases h
        refine ⟨List.mem_cons_self x xs, ?_⟩
        intro y hy
        rcases List.mem_cons.mp hy with rfl | hy'
        · exact le_refl _
        · exact le_trans hxm (hb y hy')
      · rw [if_neg hxm] at h
        cases h
        refine ⟨List.mem_cons_of_mem _ hm, ?_⟩
        intro y hy
        rcases List.mem_cons.mp hy with rfl | hy'
        · exact le_of_not_le hxm
        · exact hb y hy'

theorem minCursorGo_eq_none_iff [LinearOrder K] (cs : List (LevelCursor K)) :
    ∀ i, minCursorGo cs i = none ↔ ∀ lc ∈ cs, lc.current = none := by
  induction cs with
  | nil => intro i; simp [minCursorGo]
  | cons c rest ih =>
    intro i
    simp only [minCursorGo]
    cases hc : c.current with
    | none =>
      rw [ih (i + 1)]
      constructor
      · intro hall lc hmem
        rcases List.mem_cons.mp hmem with rfl | hmem'
        · exact hc
        · exact hall lc hmem'
      · intro hall lc hmem
        exact hall lc (List.mem_cons_of_mem _ hmem)
    | some k =>
      have hhead : ¬ ∀ lc ∈ c :: rest, LevelCursor.current lc = none := by
        intro hall
        have := hall c (List.mem_cons_self c rest)
        rw [hc] at this
        exact Option.noConfusion this
      cases hr : minCursorGo rest (i + 1) with
      | none =>
        simp only [hr]
        exact iff_of_false (by simp) hhead
      | some p =>
        obtain ⟨bi, bk⟩ := p
        simp only [hr]
        refine iff_of_false ?_ hhead
        by_cases hlt : bk < k
        · rw [if_pos hlt]
          simp
        · rw [if_neg hlt]
          simp

theorem minCursorGo_spec [LinearOrder K] (cs : List (LevelCursor K)) :
    ∀ (i j : Nat) (k : K), minCursorGo cs i = some (j, k) →
      i ≤ j ∧ (∃ lc, cs.get? (j - i) = some lc ∧ lc.current = some k) ∧
      (∀ lc ∈ cs, ∀ k', lc.current = some k' → k ≤ k') := by
  induction cs with
  | nil => intro i j k h; simp [minCursorGo] at h
  | cons c rest ih =>
    intro i j k h
    simp only [minCursorGo] at h
    cases hc : c.current with
    | none =>
      rw [hc] at h
      obtain ⟨hij, ⟨lc, hget, hcur⟩, hbound⟩ := ih (i + 1) j k h
      refine ⟨by omega, ⟨lc, ?_, hcur⟩, ?_⟩
      · have heq : j - i = (j - (i + 1)) + 1 := by omega
        rw [heq]
        simpa using hget
      · intro lc' hmem k' hcur'
        rcases List.mem_cons.mp hmem with rfl | hmem'
        · rw [hc] at hcur'
          exact Option.noConfusion hcur'
        · exact hbound lc' hmem' k' hcur'
    | some ck =>
      cases hr : minCursorGo rest (i + 1) with
      | none =>
        simp only [hc, hr] at h
        cases h
        refine ⟨le_refl _, ⟨c, by simp, hc⟩, ?_⟩
        intro lc' hmem k' hcur'
        rcases List.mem_cons.mp hmem with rfl | hmem'
        · rw [hc] at hcur'
          cases hcur'
          exact le_refl _
        · have := ((minCursorGo_eq_none_iff rest (i + 1)).mp hr) lc' hmem'
          rw [this] at hcur'
          exact Option.noConfusion hcur'
      | some p =>
        obtain ⟨bi, bk⟩ := p
        simp only [hc, hr] at h
        obtain ⟨hij', ⟨lc, hget, hcur⟩, hbound⟩ := ih (i + 1) bi bk hr
        by_cases hlt : bk < ck
        · rw [if_pos hlt] at h
          cases h
          refine ⟨by omega, ⟨lc, ?_, hcur⟩, ?_⟩
          · have heq : j - i = (j - (i + 1)) + 1 := by omega
            rw [heq]
            simpa using hget
          · intro lc' hmem k' hcur'
            rcases List.mem_cons.mp hmem with rfl | hmem'
            · rw [hc] at hcur'
              cases hcur'
              exact le_of_lt hlt
            · exact hbound lc' hmem' k' hcur'
        · rw [if_neg hlt] at h
          cases h
          refine ⟨le_refl _, ⟨c, by simp, hc⟩, ?_⟩
          intro lc' hmem k' hcur'
          rcases List.mem_cons.mp hmem with rfl | hmem'
          · rw [hc] at hcur'
            cases hcur'
            exact le_refl _
          · exact le_trans (le_of_not_lt hlt) (hbound lc' hmem' k' hcur')

theorem lsm_current_eq_min [LinearOrder K] (c : LSMTreeCursor K)
    (i : Nat) (x : K) (h : minCursorGo c.level_cursors 0 = some (i, x)) :
    c.current = some x := by
  obtain ⟨_, ⟨lc, hget, hcur⟩, hbound⟩ := minCursorGo_spec c.level_cursors 0 i x h
  have hx_mem : x ∈ c.level_cursors.filterMap LevelCursor.current := by
    rw [List.mem_filterMap]
    exact ⟨lc, List.get?_mem (by simpa using hget), hcur⟩
  cases hm : iterMin (c.level_cursors.filterMap LevelCursor.current) with
  | none =>
    rw [iterMin_eq_none_iff] at hm
    rw [hm] at hx_mem
    exact absurd hx_mem (List.not_mem_nil x)
  | some m =>
    obtain ⟨hm_mem, hm_bound⟩ := iterMin_spec _ m hm
    rw [List.mem_filterMap] at hm_mem
    obtain ⟨lc', hmem', hcur'⟩ := hm_mem
    have h1 : x ≤ m := hbound lc' hmem' m hcur'
    have h2 : m ≤ x := hm_bound x hx_mem
    unfold LSMTreeCursor.current
    rw [hm, le_antisymm h2 h1]

/-- C6: for the LSM merging cursor, `current()` is the minimum of the
per-level cursors' current keys — and `none` exactly when every level is
exhausted; the key it returns is never one marked deleted in its level's
tombstone set; and `next()` advances only the (first) cursor holding that
minimum, leaving every other level cursor untouched. -/
theorem lsm_cursor_semantics [LinearOrder K] (c : LSMTreeCursor K) :
    (c.current = none ↔ ∀ lc ∈ c.level_cursors, lc.current = none) ∧
    (∀ k, c.current = some k →
      (∃ lc ∈ c.level_cursors, lc.current = some k ∧ k ∉ lc.deleted) ∧
      (∀ lc ∈ c.level_cursors, ∀ k', lc.current = some k' → k ≤ k')) ∧
    (∀ i x, minCursorGo c.level_cursors 0 = some (i, x) →
      ∃ lc, c.level_cursors.get? i = some lc ∧
        lc.current = c.current ∧
        (c.next).2.level_cursors = c.level_cursors.set i (lc.next).2 ∧
        ∀ j, j ≠ i →
          (c.next).2.level_cursors.get? j = c.level_cursors.get? j) ∧
    (c.current = none → c.next = (false, c)) := by
  have hnone : c.current = none ↔ ∀ lc ∈ c.level_cursors, lc.current = none := by
    unfold LSMTreeCursor.current
    rw [iterMin_eq_none_iff, List.filterMap_eq_nil]
  refine ⟨hnone, fun k hk => ?_, fun i x hmin => ?_, fun hcn => ?_⟩
  · cases hm : iterMin (c.level_cursors.filterMap LevelCursor.current) with
    | none =>
      unfold LSMTreeCursor.current at hk
      rw [hm] at hk
      exact Option.noConfusion hk
    | some m =>
      have hkm : m = k := by
        unfold LSMTreeCursor.current at hk
        rw [hm] at hk
        exact Option.some.inj hk
      subst hkm
      obtain ⟨hm_mem, hm_bound⟩ := iterMin_spec _ m hm
      rw [List.mem_filterMap] at hm_mem
      obtain ⟨lc, hmem, hcur⟩ := hm_mem
      refine ⟨⟨lc, hmem, hcur, LevelCursor.current_not_deleted lc m hcur⟩, ?_⟩
      intro lc' hmem' k' hcur'
      exact hm_bound k' (List.mem_filterMap.mpr ⟨lc', hmem', hcur'⟩)
  · obtain ⟨_, ⟨lc, hget, hcur⟩, _⟩ := minCursorGo_spec c.level_cursors 0 i x hmin
    have hget0 : c.level_cursors.get? i = some lc := by simpa using hget
    refine ⟨lc, hget0, ?_, ?_, ?_⟩
    · rw [hcur, lsm_current_eq_min c i x hmin]
    · unfold LSMTreeCursor.next
      rw [hmin]
      simp only [hget0]
    · intro j hj
      unfold LSMTreeCursor.next
      rw [hmin]
      simp only [hget0]
      exact List.get?_set_ne _ _ (Ne.symm hj)
  · have hmn : minCursorGo c.level_cursors 0 = none := by
      rw [minCursorGo_eq_none_iff]
      exact hnone.mp hcn
    unfold LSMTreeCursor.next
    rw [hmn]

/-- C6 witness: a two-level cursor where level 0 holds `[5, 9]` (with 5
deleted) and level 1 holds `[6]`; the merged current is 6 (the deleted 5
is skipped), provided by a live level. -/
theorem lsm_cursor_semantics_witness :
    ((LSMTreeCursor.mk [⟨[5, 9], [5]⟩, ⟨[6], []⟩] :
        LSMTreeCursor Nat).current = some 6) ∧
    (∃ lc ∈ (LSMTreeCursor.mk [⟨[5, 9], [5]⟩, ⟨[6], []⟩] :
        LSMTreeCursor Nat).level_cursors,
      lc.current = some 6 ∧ 6 ∉ lc.deleted) :=
  have h := (lsm_cursor_semantics
    (LSMTreeCursor.mk [⟨[5, 9], [5]⟩, ⟨[6], []⟩] : LSMTreeCursor Nat)).2.1 6
    (by decide)
  ⟨by decide, h.1⟩

/-! ## Compacting cleaner (`src/ram/cleaner/compact.rs`)

`Cleaner::clean_segment` is a retry loop (`while retried < MAX_CLEAN_RETRY`)
whose body reads shared state — the segment lock, the fragment set, raw
cell headers, the append header, and the chunk index — that other threads
mutate between iterations.  We embed one iteration as a pure function of
an observation record holding exactly the values the body reads, and the
loop as a fold over a trace of observations; this is the shallow embedding
of the concurrent environment. -/

/-- `static MAX_CLEAN_RETRY: u16 = 100`. -/
def MAX_CLEAN_RETRY : Nat := 100

/-- The shared-state values one iteration of `clean_segment` reads, in
program order. -/
structure CleanObs where
  /-- `seg.lock.try_write()` succeeded -/
  lockOk : Bool
  /-- `ceiling_frag(&frags, defrag_pos)` -/
  ceilingFrag : Option Nat
  /-- `*seg.cell_version(frag_loc)` -/
  fragVersion : Nat
  /-- `*seg.cell_size(frag_loc)` -/
  fragLen : Nat
  /-- `seg.append_header.load(SeqCst)` -/
  appendHeader : Nat
  /-- the `compare_and_swap` on the append header succeeded -/
  casOk : Bool
  /-- `*seg.cell_version(next_loc)` -/
  nextVersion : Nat
  /-- `frags.contains(&next_loc)` -/
  nextInFrags : Bool
  /-- `*seg.cell_size(next_loc)` read while merging fragments -/
  nextLen : Nat
  /-- `*seg.cell_hash(next_loc)` -/
  cellHash : Nat
  /-- `chunk.location_for_write(cell_hash)`, observed under the cell's
  index write guard -/
  cellLoc : Option Nat
  /-- `*seg.cell_size(next_loc)` re-read after re-locking the segment -/
  cellLen : Nat
deriving Repr

/-- What one iteration of `clean_segment` does. -/
inductive CleanAction where
  /-- the loop returns: lock unavailable, no fragment left, or the
  append-header CAS reclaimed the last fragment -/
  | exit
  /-- a `retried += 1; continue` path -/
  | retry
  /-- coalesce the adjacent fragment into the current one (resets
  `retried`) -/
  | merge (fragLoc nextLoc newLen : Nat)
  /-- `memmove` the live cell at `nextLoc` into the fragment slot at
  `fragLoc` and repoint the index entry of `cellHash` (resets `retried`,
  advances `defrag_pos` to `fragLoc + cellLen`) -/
  | move (fragLoc nextLoc cellHash cellLen : Nat)
deriving DecidableEq, Repr

/-- One iteration of the `clean_segment` loop body, translated branch by
branch from `compact.rs` (the `defrag_pos` argument is consumed by the
environment when computing `ceilingFrag`). -/
def clean_step (o : CleanObs) : CleanAction :=
  if !o.lockOk then .exit
  else
    match o.ceilingFrag with
    | none => .exit
    | some frag_loc =>
      if o.fragVersion ≠ 0 then .retry
      else
        let next_loc := frag_loc + o.fragLen
        if next_loc = o.appendHeader then
          (if o.casOk then .exit else .retry)
        else if o.nextVersion = 0 then
          (if o.nextInFrags then .merge frag_loc next_loc (o.fragLen + o.nextLen)
           else .retry)
        else if next_loc = 0 ∨ frag_loc = 0 then .retry
        else
          match o.cellLoc with
          | none => .retry
          | some loc =>
            if loc ≠ next_loc then .retry
            else .move frag_loc next_loc o.cellHash o.cellLen

/-- The `while retried < MAX_CLEAN_RETRY` loop of `clean_segment` over a
trace of observations, recording the action taken at each iteration;
`merge`/`move` reset the retry counter, `move` advances `defrag_pos` to
the new fragment location. -/
def clean_loop : List CleanObs → Nat → Nat → List (CleanObs × CleanAction)
  | [], _, _ => []
  | o :: rest, retried, defrag_pos =>
    if retried < MAX_CLEAN_RETRY then
      match clean_step o with
      | .exit => [(o, .exit)]
      | .retry => (o, .retry) :: clean_loop rest (retried + 1) defrag_pos
      | .merge f n l => (o, .merge f n l) :: clean_loop rest 0 defrag_pos
      | .move f n h l => (o, .move f n h l) :: clean_loop rest 0 (f + l)
    else []

/-- The chunk-index effect of a cleaner action: a `move` repoints the first
binding of the cell's hash to the fragment slot (`*cell_loc = frag_loc`
under the index write guard), everything else leaves the index alone. -/
def apply_clean_action (idx : List (Nat × Nat)) : CleanAction → List (Nat × Nat)
  | .move fragLoc _ cellHash _ => indexSet idx cellHash fragLoc
  | _ => idx

theorem clean_step_move_inversion (o : CleanObs) (f n h l : Nat)
    (hm : clean_step o = .move f n h l) :
    o.cellLoc = some n ∧ n = f + o.fragLen ∧ h = o.cellHash ∧ l = o.cellLen := by
  unfold clean_step at hm
  by_cases hlock : o.lockOk
  · rw [if_neg (by simp [hlock])] at hm
    cases hcf : o.ceilingFrag with
    | none => rw [hcf] at hm; exact CleanAction.noConfusion hm
    | some frag_loc =>
      simp only [hcf] at hm
      by_cases hv : o.fragVersion ≠ 0
      · rw [if_pos hv] at hm; exact CleanAction.noConfusion hm
      · rw [if_neg hv] at hm
        by_cases hnl : frag_loc + o.fragLen = o.appendHeader
        · rw [if_pos hnl] at hm
          by_cases hcas : o.casOk <;> simp [hcas] at hm
        · rw [if_neg hnl] at hm
          by_cases hv0 : o.nextVersion = 0
          · rw [if_pos hv0] at hm
            by_cases hif : o.nextInFrags <;> simp [hif] at hm
          · rw [if_neg hv0] at hm
            by_cases h0 : frag_loc + o.fragLen = 0 ∨ frag_loc = 0
            · rw [if_pos h0] at hm; exact CleanAction.noConfusion hm
            · rw [if_neg h0] at hm
              cases hcl : o.cellLoc with
              | none => rw [hcl] at hm; exact CleanAction.noConfusion hm
              | some loc =>
                simp only [hcl] at hm
                by_cases hne : loc ≠ frag_loc + o.fragLen
                · rw [if_pos hne] at hm; exact CleanAction.noConfusion hm
                · rw [if_neg hne] at hm
                  push_neg at hne
                  cases hm
                  exact ⟨by rw [hne], rfl, rfl, rfl⟩
  · rw [if_pos (by simp [hlock])] at hm
    exact CleanAction.noConfusion hm

theorem clean_loop_move_sound (obss : List CleanObs) :
    ∀ (retried defrag_pos : Nat) (o : CleanObs) (f n h l : Nat),
      (o, CleanAction.move f n h l) ∈ clean_loop obss retried defrag_pos →
      o.cellLoc = some n ∧ n = f + o.fragLen ∧ h = o.cellHash ∧
      l = o.cellLen := by
  induction obss with
  | nil => intro retried d o f n h l hmem; simp [clean_loop] at hmem
  | cons ob rest ih =>
    intro retried d o f n h l hmem
    unfold clean_loop at hmem
    by_cases hret : retried < MAX_CLEAN_RETRY
    · rw [if_pos hret] at hmem
      cases hstep : clean_step ob with
      | exit =>
        rw [hstep] at hmem
        rcases List.mem_singleton.mp hmem with hpq
        exact absurd (congrArg Prod.snd hpq) (by simp)
      | retry =>
        rw [hstep] at hmem
        rcases List.mem_cons.mp hmem with hpq | htail
        · exact absurd (congrArg Prod.snd hpq) (by simp)
        · exact ih _ _ o f n h l htail
      | merge mf mn ml =>
        rw [hstep] at hmem
        rcases List.mem_cons.mp hmem with hpq | htail
        · exact absurd (congrArg Prod.snd hpq) (by simp)
        · exact ih _ _ o f n h l htail
      | move mf mn mh ml =>
        rw [hstep] at hmem
        rcases List.mem_cons.mp hmem with hpq | htail
        · have ho : o = ob := congrArg Prod.fst hpq
          have ha : CleanAction.move f n h l = .move mf mn mh ml :=
            congrArg Prod.snd hpq
          cases ha
          subst ho
          exact clean_step_move_inversion o f n h l hstep
        · exact ih _ _ o f n h l htail
    · rw [if_neg hret] at hmem
      exact absurd hmem (List.not_mem_nil _)

theorem clean_loop_retry_bound (obss : List CleanObs) :
    ∀ (retried defrag_pos : Nat),
      (∀ p ∈ clean_loop obss retried defrag_pos, p.2 = CleanAction.retry) →
      (clean_loop obss retried defrag_pos).length
        ≤ MAX_CLEAN_RETRY - retried := by
  induction obss with
  | nil => intro retried d _; simp [clean_loop]
  | cons ob rest ih =>
    intro retried d hall
    unfold clean_loop at hall ⊢
    by_cases hret : retried < MAX_CLEAN_RETRY
    · rw [if_pos hret] at hall ⊢
      cases hstep : clean_step ob with
      | exit =>
        simp only [hstep] at hall
        have := hall (ob, .exit) (List.mem_singleton.mpr rfl)
        exact absurd this (by simp)
      | retry =>
        simp only [hstep] at hall ⊢
        have := ih (retried + 1) d
          (fun p hp => hall p (List.mem_cons_of_mem _ hp))
        simp only [List.length_cons]
        omega
      | merge mf mn ml =>
        simp only [hstep] at hall
        have := hall (ob, .merge mf mn ml) (List.mem_cons_self _ _)
        exact absurd this (by simp)
      | move mf mn mh ml =>
        simp only [hstep] at hall
        have := hall (ob, .move mf mn mh ml) (List.mem_cons_self _ _)
        exact absurd this (by simp)
    · rw [if_neg hret] at hall ⊢
      simp

/-- C4: in any run of the `clean_segment` loop, (1) a `move` happens only
when the cell's hash→address mapping, re-read under the cell's index
write guard after re-acquiring the locks, still equals the planned source
address `frag_loc + frag_len` being vacated — on any mismatch (absent
hash, changed location, missing tombstone, moved append header, …) the
iteration only retries; (2) the index effect of any action preserves the
set of live cell hashes, a `move` merely repointing the moved cell's hash
to the fragment slot; (3) retries without progress are bounded: a run in
which every iteration retries performs at most `MAX_CLEAN_RETRY = 100`
iterations. -/
theorem cleaner_move_safety (obss : List CleanObs) (retried defrag_pos : Nat)
    (idx : List (Nat × Nat)) (hretried : retried = 0) :
    (∀ (o : CleanObs) (f n h l : Nat),
      (o, CleanAction.move f n h l) ∈ clean_loop obss retried defrag_pos →
      o.cellLoc = some n ∧ n = f + o.fragLen ∧ h = o.cellHash) ∧
    (∀ a : CleanAction,
      (apply_clean_action idx a).map Prod.fst = idx.map Prod.fst) ∧
    (∀ f n h l, indexGet idx h ≠ none →
      indexGet (apply_clean_action idx (.move f n h l)) h = some f) ∧
    ((∀ p ∈ clean_loop obss retried defrag_pos, p.2 = CleanAction.retry) →
      (clean_loop obss retried defrag_pos).length ≤ MAX_CLEAN_RETRY) := by
  subst hretried
  refine ⟨fun o f n h l hmem => ?_, fun a => ?_, fun f n h l hsome => ?_,
    fun hall => ?_⟩
  · have := clean_loop_move_sound obss 0 defrag_pos o f n h l hmem
    exact ⟨this.1, this.2.1, this.2.2.1⟩
  · cases a with
    | move mf mn mh ml => exact indexSet_map_fst idx mh mf
    | exit => rfl
    | retry => rfl
    | merge _ _ _ => rfl
  · unfold apply_clean_action
    rw [indexGet_indexSet_self]
    cases hg : indexGet idx h with
    | none => exact absurd hg hsome
    | some v => rfl
  · have := clean_loop_retry_bound obss 0 defrag_pos hall
    simpa using this

/-- C4 witness: a two-observation trace whose first iteration finds the
index entry moved away (retry) and whose second matches and moves the
cell; the bound and index-preservation parts instantiated alongside. -/
theorem cleaner_move_safety_witness :
    ((0 : Nat) = 0) ∧
    (∀ (o : CleanObs) (f n h l : Nat),
      (o, CleanAction.move f n h l) ∈ clean_loop
        [⟨true, some 8, 0, 4, 100, false, 7, false, 0, 77, some 16, 4⟩,
         ⟨true, some 8, 0, 4, 100, false, 7, false, 0, 77, some 12, 4⟩] 0 8 →
      o.cellLoc = some n ∧ n = f + o.fragLen ∧ h = o.cellHash) ∧
    (∀ a : CleanAction,
      (apply_clean_action [(77, 12)] a).map Prod.fst
        = [(77, 12)].map Prod.fst) :=
  have h := cleaner_move_safety
    [⟨true, some 8, 0, 4, 100, false, 7, false, 0, 77, some 16, 4⟩,
     ⟨true, some 8, 0, 4, 100, false, 7, false, 0, 77, some 12, 4⟩] 0 8
    [(77, 12)] rfl
  ⟨rfl, h.1, h.2.1⟩

/-! ## The cell codec (`src/ram/io/writer.rs`, `src/ram/io/reader.rs`)

`plan_write_field` walks the schema producing an instruction list
(`execute_plan` then writes each instruction's value bytes at its offset);
`read_field` mirrors the walk reading bytes back.  The `ram/types` io
helpers (`set_val`, `get_val`, `get_size`, `get_vsize`, `u8_io`/`u16_io`/
`u32_io`, …) are not under `src/`; they are modelled from the spec:
fixed-size primitives are little-endian at their type's width (`u8_io` 1
byte, `u16_io` 2, `u32_io` 4, as the repo's own `array_len_type` test
asserts `ARRAY_LEN_TYPE` has `u32` width), strings are length-prefixed,
primitive arrays are consecutive elements. -/

/-- The primitive types the embedded codec needs (`dovahkiin::types::Type`
restricted to the claims' reach; `mapT` stands for the map/compound type
whose `data_type` neither the writer nor the reader consults). -/
inductive Ty where
  | boolT
  | u8
  | u16
  | u32
  | u64
  | i64
  | strT
  | mapT
deriving DecidableEq, Repr

/-- Modelled from the spec: `types::size_of_type` / the fixed width of each
primitive type. -/
def Ty.typeSize : Ty → Nat
  | .boolT => 1
  | .u8 => 1
  | .u16 => 2
  | .u32 => 4
  | .u64 => 8
  | .i64 => 8
  | .strT => 0
  | .mapT => 0

/-- Modelled from the spec: `types::fixed_size` — strings (and compound
values) are variable-sized. -/
def Ty.fixedSize : Ty → Bool
  | .strT => false
  | .mapT => false
  | _ => true

/-- `OwnedValue` (`dovahkiin`), restricted to the constructors the embedded
codec needs.  A map is its ordered `name_id → value` entries; a primitive
array holds its raw elements. -/
inductive OwnedValue where
  | null
  | na
  | boolV (b : Bool)
  | u8V (n : Nat)
  | u16V (n : Nat)
  | u32V (n : Nat)
  | u64V (n : Nat)
  | i64V (n : Int)
  | strV (bytes : List Nat)
  | arrV (elems : List OwnedValue)
  | primArrV (elems : List Nat)
  | mapV (entries : List (Nat × OwnedValue))

/-- `OwnedValue::Null` test (the writer's `match value { Null => …}`). -/
def OwnedValue.isNull : OwnedValue → Bool
  | .null => true
  | _ => false

/-- `Field` from `ram/schema/mod.rs` (the members the codec reads). -/
structure Field where
  data_type : Ty
  nullable : Bool
  is_array : Bool
  sub_fields : Option (List Field)
  name_id : Nat
  offset : Option Nat

/-- `Field::is_var` from `ram/schema/mod.rs`. -/
def Field.is_var (f : Field) : Bool :=
  f.is_array || !f.data_type.fixedSize

/-- `Schema` from `ram/schema/mod.rs` (the members the codec reads):
`static_bound` is where the trailing variable region starts. -/
structure Schema where
  fields : Field
  static_bound : Nat
  is_dynamic : Bool

/-- `map.get_by_key_id(name_id)` of the dovahkiin map: the entry's value,
`Null` when absent. -/
def mapGet (entries : List (Nat × OwnedValue)) (name_id : Nat) : OwnedValue :=
  match indexGet' entries name_id with
  | some v => v
  | none => .null
where
  indexGet' : List (Nat × OwnedValue) → Nat → Option OwnedValue
    | [], _ => none
    | (k, v) :: rest, h => if k = h then some v else indexGet' rest h

/-- Modelled from the spec: the byte image `types::set_val` writes for a
value of the given type (little-endian fixed widths; strings as a 4-byte
length followed by the bytes; primitive arrays as consecutive elements of
the element type's width). -/
def encodeScalar : Ty → OwnedValue → List Nat
  | .boolT, .boolV b => [if b then 1 else 0]
  | .u8, .u8V n => [n % 256]
  | .u16, .u16V n => leBytes n 2
  | .u32, .u32V n => leBytes n 4
  | .u64, .u64V n => leBytes n 8
  | .i64, .i64V n => leBytes (((n % (2 ^ 64 : Int)) + 2 ^ 64) % 2 ^ 64).toNat 8
  | .strT, .strV bs => leBytes bs.length 4 ++ bs
  | ty, .primArrV elems => elems.flatMap (fun e => leBytes e ty.typeSize)
  | _, _ => []

/-- Modelled from the spec: `types::get_vsize` — the byte size of a value
of the given type (`array.size()` for primitive arrays). -/
def get_vsize (ty : Ty) (v : OwnedValue) : Nat :=
  match ty, v with
  | ty, .primArrV elems => elems.length * ty.typeSize
  | .strT, .strV bs => 4 + bs.length
  | ty, _ => ty.typeSize

/-- Modelled from the spec: `types::get_val` — decode one value of the
given type at `ptr`. -/
def get_val (ty : Ty) (m : Mem) (ptr : Nat) : OwnedValue :=
  match ty with
  | .boolT => .boolV (m.read ptr == 1)
  | .u8 => .u8V (m.read ptr)
  | .u16 => .u16V (leDecode (m.readBytes ptr 2))
  | .u32 => .u32V (leDecode (m.readBytes ptr 4))
  | .u64 => .u64V (leDecode (m.readBytes ptr 8))
  | .i64 =>
    let u := leDecode (m.readBytes ptr 8)
    .i64V (if u < 2 ^ 63 then (u : Int) else (u : Int) - 2 ^ 64)
  | .strT => .strV (m.readBytes (ptr + 4) (leDecode (m.readBytes ptr 4)))
  | .mapT => .null

/-- Modelled from the spec: `types::get_size` — the encoded size of the
value of the given type found at `ptr`. -/
def get_size (ty : Ty) (m : Mem) (ptr : Nat) : Nat :=
  match ty with
  | .strT => 4 + leDecode (m.readBytes ptr 4)
  | ty => ty.typeSize

/-- A write-plan `Instruction` from `writer.rs`: type, value
(`InstData::Ref`/`Val` both dereference to the value) and target offset. -/
structure Instruction where
  data_type : Ty
  val : OwnedValue
  offset : Nat

/-- `execute_plan` from `writer.rs`: perform each instruction's
`types::set_val(ins.data_type, ins.val, ptr + ins.offset)`. -/
def execute_plan (m : Mem) (ptr : Nat) (instructions : List Instruction) : Mem :=
  instructions.foldl
    (fun mm ins => mm.writeBytes (ptr + ins.offset)
      (encodeScalar ins.data_type ins.val)) m

/-- Result type of the write planner: `none` models fuel exhaustion or an
`unwrap`/`expect` panic; `some (.error e)` a returned `WriteError`. -/
abbrev PlanRes := Option (Except WriteError (Nat × List Instruction))

mutual

/-- `plan_write_field` from `writer.rs`.  `tail_offset` is the moving tail
of the variable region; the returned `Nat` is its new value (the Rust
function mutates `tail_offset` through the `offset` reference exactly when
the field's bytes go to the variable region).  `ins` is the instruction
accumulator; `is_var` says the field is being written inside the variable
region (no jump tags there). -/
def plan_write_field (fuel : Nat) (tail_offset : Nat) (field : Field)
    (value : OwnedValue) (is_var : Bool) (ins : List Instruction) : PlanRes :=
  match fuel with
  | 0 => none
  | fuel + 1 =>
    match field.sub_fields with
    | some subs =>
      match value with
      | .arrV _ =>
        if !field.is_array then
          some (.error .dataMismatchSchema)
        else
          -- jump tag for a map array when not already in the var region
          match (if !is_var then
              (match field.offset with
               | some so =>
                 some (ins ++ [⟨.u32, .u32V tail_offset, so⟩])
               | none => none)
            else some ins) with
          | none => none
          | some ins =>
            plan_write_common fuel tail_offset true tail_offset field value ins
      | .mapV entries =>
        plan_write_fields fuel tail_offset subs entries is_var ins
      | _ => some (.error .dataMismatchSchema)
    | none =>
      if field.is_var then
        -- position tag for a variable-sized field
        match (if !is_var then
            (match field.offset with
             | some so => some (ins ++ [⟨.u32, .u32V tail_offset, so⟩])
             | none => none)
          else some ins) with
        | none => none
        | some ins =>
          plan_write_common fuel tail_offset true tail_offset field value ins
      else if !is_var then
        match field.offset with
        | some so => plan_write_common fuel tail_offset false so field value ins
        | none => none
      else
        plan_write_common fuel tail_offset true tail_offset field value ins
termination_by (fuel, 0, 0)

/-- The shared tail of `plan_write_field`: null flag, array length and
element/value instructions.  `useTail` records whether the Rust `offset`
reference points at `tail_offset` (variable region) or at the local
`schema_offset` copy (fixed region, leaving the tail untouched). -/
def plan_write_common (fuel : Nat) (tail_offset : Nat) (useTail : Bool)
    (off0 : Nat) (field : Field) (value : OwnedValue)
    (ins : List Instruction) : PlanRes :=
  let st :=
    if field.nullable then
      (off0 + 1, ins ++ [⟨.boolT, .boolV value.isNull, off0⟩])
    else (off0, ins)
  let off1 := st.1
  let ins1 := st.2
  if field.is_array then
    match value with
    | .arrV array =>
      let ins2 := ins1 ++ [⟨.u32, .u32V array.length, off1⟩]
      let off2 := off1 + (Ty.u32).typeSize
      let sub_field := { field with is_array := false }
      match plan_write_array fuel off2 sub_field array ins2 with
      | none => none
      | some (.error e) => some (.error e)
      | some (.ok (off3, ins3)) =>
        some (.ok (if useTail then off3 else tail_offset, ins3))
    | .primArrV array =>
      let ins2 := ins1 ++ [⟨.u32, .u32V array.length, off1⟩]
      let off2 := off1 + (Ty.u32).typeSize
      let size := array.length * field.data_type.typeSize
      let ins3 := ins2 ++ [⟨field.data_type, value, off2⟩]
      some (.ok (if useTail then off2 + size else tail_offset, ins3))
    | _ => some (.error .dataMismatchSchema)
  else
    if !field.nullable && value.isNull then
      some (.error .dataMismatchSchema)
    else if value.isNull then
      some (.ok (if useTail then off1 else tail_offset, ins1))
    else
      let size := get_vsize field.data_type value
      some (.ok (if useTail then off1 + size else tail_offset,
        ins1 ++ [⟨field.data_type, value, off1⟩]))
termination_by (fuel, 2, 0)

/-- The `for sub in subs` loop of `plan_write_field`'s map branch: plan
each sub-field against `map.get_by_key_id(sub.name_id)`. -/
def plan_write_fields (fuel : Nat) (tail_offset : Nat) (subs : List Field)
    (entries : List (Nat × OwnedValue)) (is_var : Bool)
    (ins : List Instruction) : PlanRes :=
  match subs with
  | [] => some (.ok (tail_offset, ins))
  | sub :: rest =>
    match plan_write_field fuel tail_offset sub (mapGet entries sub.name_id)
        is_var ins with
    | none => none
    | some (.error e) => some (.error e)
    | some (.ok (tail', ins')) =>
      plan_write_fields fuel tail' rest entries is_var ins'
termination_by (fuel, 1, subs.length)

/-- The `for val in array` loop of `plan_write_field`'s array branch: plan
each element at the moving offset with `is_var = true`. -/
def plan_write_array (fuel : Nat) (off : Nat) (sub_field : Field)
    (elems : List OwnedValue) (ins : List Instruction) : PlanRes :=
  match elems with
  | [] => some (.ok (off, ins))
  | v :: rest =>
    match plan_write_field fuel off sub_field v true ins with
    | none => none
    | some (.error e) => some (.error e)
    | some (.ok (off', ins')) => plan_write_array fuel off' sub_field rest ins'
termination_by (fuel, 1, elems.length)

end

/-- Result of the reader: value and the pointer past it (`none` models fuel
exhaustion or an indexing panic). -/
abbrev ReadRes := Option (OwnedValue × Nat)

mutual

/-- `read_field` from `reader.rs`: null byte first, then arrays (length
read through `u16_io` and advanced by `u16_io::size`, i.e. 2 bytes,
elements read inline), then sub-field maps (with the `selected`
short-circuit), else one primitive via `types::get_val`/`get_size`. -/
def read_field (fuel : Nat) (m : Mem) (ptr : Nat) (field : Field)
    (selected : Option (List Nat)) : ReadRes :=
  match fuel with
  | 0 => none
  | fuel + 1 =>
    if field.nullable && m.read ptr == 1 then
      some (.null, ptr + 1)
    else
      let ptr := if field.nullable then ptr + 1 else ptr
      if field.is_array then
        let len := leDecode (m.readBytes ptr 2)
        let sub_field := { field with is_array := false }
        let ptr := ptr + 2
        match read_array fuel m ptr sub_field len [] with
        | none => none
        | some (vals, ptr') => some (.arrV vals, ptr')
      else
        match field.sub_fields with
        | some subs => read_subs fuel m ptr subs selected 0 []
        | none =>
          some (get_val field.data_type m ptr,
            ptr + get_size field.data_type m ptr)
termination_by (fuel, 0)

/-- The `for _ in 0..len` element loop of `read_field`'s array branch
(elements are read with `selected = None`). -/
def read_array (fuel : Nat) (m : Mem) (ptr : Nat) (sub_field : Field)
    (len : Nat) (acc : List OwnedValue) : Option (List OwnedValue × Nat) :=
  match len with
  | 0 => some (acc, ptr)
  | len + 1 =>
    match read_field fuel m ptr sub_field none with
    | none => none
    | some (v, ptr') => read_array fuel m ptr' sub_field len (acc ++ [v])
termination_by (fuel, 1 + len)

/-- The `for sub in subs` loop of `read_field`'s map branch, including the
partial-read short circuit over the sorted `selected` field-id list
(`field_ids[selected_pos]` panics — `none` — when out of range). -/
def read_subs (fuel : Nat) (m : Mem) (ptr : Nat) (subs : List Field)
    (selected : Option (List Nat)) (selected_pos : Nat)
    (acc : List (Nat × OwnedValue)) : ReadRes :=
  match subs with
  | [] => some (.mapV acc, ptr)
  | sub :: rest =>
    match read_field fuel m ptr sub selected with
    | none => none
    | some (cval, cptr) =>
      let acc := acc ++ [(sub.name_id, cval)]
      match selected with
      | none => read_subs fuel m cptr rest selected selected_pos acc
      | some field_ids =>
        match field_ids.get? selected_pos with
        | none => none
        | some fid =>
          if fid = sub.name_id then
            if field_ids.length ≤ selected_pos + 1 then
              some (.mapV acc, cptr)
            else
              read_subs fuel m cptr rest selected (selected_pos + 1) acc
          else
            read_subs fuel m cptr rest selected selected_pos acc
termination_by (fuel, 1 + subs.length)

end

/-- Modelled from the spec: the top of the cell write path
(`Cell::write_to_chunk` is not under `src/`): the write plan starts with
the variable-region tail at `schema.static_bound` and the instruction
list empty, outside the variable region. -/
def plan_cell_write (fuel : Nat) (schema : Schema) (value : OwnedValue) :
    PlanRes :=
  plan_write_field fuel schema.static_bound schema.fields value false []

/-- A `u8` array field ("data"-style, as the repo's cleaner test schema
uses), non-nullable; `assign_offsets` places it at offset 0 with a 4-byte
jump pointer. -/
def arrFieldS : Field := ⟨.u8, false, true, none, 11, some 0⟩

/-- The root map field holding only the array field. -/
def rootFieldS : Field := ⟨.mapT, false, false, some [arrFieldS], 1, some 0⟩

/-- The schema for the root field: `assign_offsets` yields
`static_bound = 4` (one 4-byte array jump pointer), non-dynamic. -/
def arrU8Schema : Schema := ⟨rootFieldS, 4, false⟩

/-- A schema-valid cell body: the array field holding `[42]`. -/
def arrU8Value : OwnedValue := .mapV [(11, .arrV [.u8V 42])]

/-- The instruction list `plan_write_field` produces for `arrU8Value`:
a `u32` jump tag `4` at the field's offset 0, the `u32` array length `1`
at the variable-region tail 4, and the element byte `42` at 8. -/
def arrU8Ins : List Instruction :=
  [⟨.u32, .u32V 4, 0⟩, ⟨.u32, .u32V 1, 4⟩, ⟨.u8, .u8V 42, 8⟩]

/-- C1: the schema-driven write plan and the schema-driven reader are NOT
mutual inverses.  For the schema-valid cell body `{arr: [42u8]}` the
writer (`plan_write_field`, `writer.rs`) emits a 4-byte `u32` jump tag in
the fixed region and the array — 4-byte `u32` length plus payload — in
the trailing variable region, while the reader (`read_field`,
`reader.rs`) never follows the jump tag: it reads the array inline at the
fixed offset with a 2-byte `u16` length (`u16_io`), so it consumes the
jump tag bytes `[4,0]` as the length 4 and returns `[0,0,1,0]` instead of
`[42]`.  (The repo's own tests, `tests/chunk.rs cell_rw` and the
`array_len_type` test asserting the `u32` width of `ARRAY_LEN_TYPE`,
require the round trip the reader breaks.) -/
theorem cell_codec_roundtrip_code_bug :
    plan_cell_write 8 arrU8Schema arrU8Value = some (.ok (9, arrU8Ins)) ∧
    read_field 8 (execute_plan Mem.zeros 0 arrU8Ins) 0 arrU8Schema.fields none
      = some (.mapV [(11, .arrV [.u8V 0, .u8V 0, .u8V 1, .u8V 0])], 6) ∧
    (some (OwnedValue.mapV [(11, .arrV [.u8V 0, .u8V 0, .u8V 1, .u8V 0])])
      : Option OwnedValue) ≠ some arrU8Value := by
  refine ⟨?_, ?_, ?_⟩
  · simp [plan_cell_write, plan_write_field, plan_write_common,
      plan_write_fields, plan_write_array, arrU8Schema, arrU8Value, arrU8Ins,
      rootFieldS, arrFieldS, mapGet, mapGet.indexGet', Field.is_var,
      Ty.fixedSize, Ty.typeSize, OwnedValue.isNull, get_vsize]
  · simp [read_field, read_subs, read_array, arrU8Schema, rootFieldS,
      arrFieldS, execute_plan, arrU8Ins, encodeScalar, leBytes,
      Mem.writeBytes, Mem.write1, Mem.zeros, Mem.read, Mem.readBytes,
      leDecode, get_val, get_size, Ty.typeSize]
  · simp [arrU8Value]

end Neb
